import Mathlib

/-!
Verification development for the `verifai` writing-assistant UI.

The embedded code is `src/components/TextInput.tsx` (paste sanitisation,
tag stripping, `<br>` segmentation, per-segment verification fan-out,
highlight re-rendering, aggregate-metric computation, document update)
and `src/components/ResultMetrics.tsx` (metrics panel rendering).

Modelling conventions:
* DOM strings are `List Char` (JavaScript strings, one entry per UTF-16-ish
  character; all characters appearing here are ASCII).
* JavaScript numbers occurring in the aggregation are exact rationals while
  they are only summed; the divisions at the end of the aggregation can
  divide by zero, so their results live in `JSNum`, which adds the IEEE
  special values `NaN`/`±Infinity` produced by rational division by zero.
* The remote endpoint `../api/validate-input` is external; it is abstracted
  as a function `api : ℕ → List Char → Except Unit InputTextResult` giving,
  per issued request, either the parsed JSON body or a fetch/parse failure.
* Effects of the submission flow (`fetch` dispatch, `setIsLoading`,
  `setResults`, `updateUserDocument`, the `catch` logging) are recorded in
  order as an event trace.
-/

/-- JavaScript number resulting from the aggregation divisions: either a
finite rational or one of the IEEE special values that `x / 0` produces. -/
inductive JSNum where
  | num (q : ℚ)
  | nan
  | posInf
  | negInf
deriving DecidableEq

/-- JavaScript division `a / b` for finite operands: division by zero gives
`NaN` when the numerator is zero and `±Infinity` otherwise. -/
def jsDiv (a b : ℚ) : JSNum :=
  if b = 0 then (if a = 0 then .nan else if 0 < a then .posInf else .negInf)
  else .num (a / b)

/-- JavaScript multiplication of a division result by a finite constant
(the `* 10` and `* 100` display scalings). -/
def jsScale (x : JSNum) (c : ℚ) : JSNum :=
  match x with
  | .num q => .num (q * c)
  | .nan => .nan
  | .posInf => if 0 < c then .posInf else if c = 0 then .nan else .negInf
  | .negInf => if 0 < c then .negInf else if c = 0 then .nan else .posInf

/-- Modelled from the spec: the per-segment score object `{gpt, human}` of a
`VerificationResult`; the interface declarations live in
`src/utils/interfaces`, which is not among the shown sources (§6 of the
spec gives the response shape). -/
structure Score where
  gpt : ℚ
  human : ℚ
deriving DecidableEq

/-- Modelled from the spec: the per-segment metrics object
`{coherence, repetition, personality, originality}` of a
`VerificationResult` (spec §6). -/
structure SubMetrics where
  coherence : ℚ
  repetition : ℚ
  personality : ℚ
  originality : ℚ
deriving DecidableEq

/-- Modelled from the spec: a parsed verification response
`{id, score, metrics, details}` (spec §3 and §6). Only the length of
`details` is ever inspected, so its elements are `Unit`. -/
structure InputTextResult where
  id : List Char
  score : Score
  metrics : SubMetrics
  details : List Unit
deriving DecidableEq

/-- The aggregate metrics bundle stored on the document rating: the four
displayed sub-metrics after division (hence `JSNum`) plus the internal
contribution counter `errorTextCount`. -/
structure RatingMetrics where
  coherence : JSNum
  repetition : JSNum
  personality : JSNum
  originality : JSNum
  errorTextCount : ℕ
deriving DecidableEq

/-- The rating stored on the document: overall gpt/human percentages and
the metrics bundle. -/
structure Rating where
  gpt : JSNum
  human : JSNum
  metrics : RatingMetrics
deriving DecidableEq

/-- Modelled from the spec: the document owned by the surrounding
application — raw HTML content, rating, per-segment results (spec §3);
declared in `src/utils/interfaces`, which is not among the shown sources. -/
structure UserDocument where
  content : List Char
  rating : Rating
  results : List InputTextResult
deriving DecidableEq

/-- The `<br>` line-break marker as a character list. -/
def brTag : List Char := "<br>".data

/-- Number of occurrences of `pat` in `s`: the number of suffix positions
of `s` at which `pat` occurs (for the patterns used here occurrences can
never overlap, so this is the plain occurrence count). `pat` is always
nonempty where this is used. -/
def countSuff (pat : List Char) : List Char → ℕ
  | [] => 0
  | c :: rest => (if (c :: rest).take pat.length = pat then 1 else 0) + countSuff pat rest

/-- `handlePaste` body, sanitisation step: `text.replace(/\n/g, '<br>')` —
every line-feed character of the pasted plain text becomes one `<br>`
marker, all other characters are kept unchanged. -/
def pasteSanitize : List Char → List Char
  | [] => []
  | c :: rest => (if c = '\n' then brTag else [c]) ++ pasteSanitize rest

/-- `handlePaste`: the sanitised clipboard text is appended to the current
content (`innerHTML += text`) and the updated content is persisted onto the
document (`updateUserDocument`). Returns the new surface content and the
updated document. -/
def handlePaste (currentHtml clip : List Char) (doc : UserDocument) :
    List Char × UserDocument :=
  let newHtml := currentHtml ++ pasteSanitize clip
  (newHtml, { doc with content := newHtml })

/-- One character of the character class `[a-z]` under the `i` flag. -/
def isTagLetter (c : Char) : Bool :=
  ('a' ≤ c && c ≤ 'z') || ('A' ≤ c && c ≤ 'Z')

/-- The lookahead `br\s*\/?` of the strip regex, case-insensitively: since
`\s*\/?` can match the empty string, the lookahead succeeds exactly when
the next two characters are `br` (in any case). -/
def lookBr : List Char → Bool
  | b :: r :: _ => (b = 'b' || b = 'B') && (r = 'r' || r = 'R')
  | _ => false

/-- `[^>]*>` at the current position: the number of non-`>` characters
before the first `>`, or `none` when no `>` follows. -/
def scanGt : List Char → Option ℕ
  | [] => none
  | c :: rest => if c = '>' then some 0 else (scanGt rest).map (· + 1)

/-- Shared body of both alternatives of the strip regex after the leading
`<` (open tags) or `</` (close tags): the negative lookahead `(?!br\s*\/?)`,
then `[a-z]` (case-insensitive), then `[^>]*>`. `off` is the number of
characters already consumed plus the letter and the closing `>`
(3 for open tags, 4 for close tags). -/
def tagBody (off : ℕ) (l : List Char) : Option ℕ :=
  if lookBr l then none
  else
    match l with
    | [] => none
    | c :: r2 => if isTagLetter c then (scanGt r2).map (fun k => k + off) else none

/-- Whether the strip regex
`/<(?!br\s*\/?)[a-z][^>]*>|<\/(?!br\s*\/?)[a-z][^>]*>/gi` matches at the
start of `l`; if so, the length of the match. The first alternative
requires a letter directly after `<`, so the two alternatives never both
apply and the branch on `/` is faithful to the alternation. -/
def matchTag : List Char → Option ℕ
  | [] => none
  | c :: rest =>
    if c = '<' then
      match rest with
      | [] => none
      | d :: r1 => if d = '/' then tagBody 4 r1 else tagBody 3 rest
    else none

/-- The tag-stripping step of `handleSubmit`: the global replacement of the
strip regex by the empty string. The scan proceeds left to right; at a
match the matched characters are deleted and scanning resumes after them,
otherwise the character is kept and scanning advances by one. -/
def stripTags : List Char → List Char
  | [] => []
  | c :: rest =>
    match _h : matchTag (c :: rest) with
    | some k => stripTags ((c :: rest).drop k)
    | none => c :: stripTags rest
termination_by s => s.length
decreasing_by
  · have hscan : ∀ (l : List Char) (k : ℕ), scanGt l = some k → k < l.length := by
      intro l
      induction l with
      | nil => intro k h; simp [scanGt] at h
      | cons a l ih =>
        intro k h
        simp only [scanGt] at h
        split at h
        · obtain rfl : (0 : ℕ) = k := by simpa using h
          simp only [List.length_cons]
          omega
        · simp only [Option.map_eq_some'] at h
          obtain ⟨k0, hk0, rfl⟩ := h
          have := ih k0 hk0
          simp only [List.length_cons]
          omega
    have hbody : ∀ (off : ℕ) (l : List Char) (k : ℕ), tagBody off l = some k →
        off ≤ k ∧ k + 2 ≤ l.length + off := by
      intro off l k h
      unfold tagBody at h
      split at h
      · simp at h
      · split at h
        · simp at h
        · split at h
          · simp only [Option.map_eq_some'] at h
            obtain ⟨k0, hk0, rfl⟩ := h
            have := hscan _ k0 hk0
            refine ⟨by omega, ?_⟩
            simp only [List.length_cons]
            omega
          · simp at h
    have hmatch : 0 < k ∧ k ≤ (c :: rest).length := by
      rcases rest with _ | ⟨d, r1⟩
      · simp only [matchTag] at _h
        split at _h <;> simp at _h
      · by_cases hc : c = '<'
        · subst hc
          by_cases hd : d = '/'
          · subst hd
            simp only [matchTag, if_pos rfl] at _h
            have := hbody 4 r1 k _h
            simp only [List.length_cons]
            omega
          · simp only [matchTag, if_pos rfl, if_neg hd] at _h
            have := hbody 3 (d :: r1) k _h
            simp only [List.length_cons] at this ⊢
            omega
        · simp [matchTag, hc] at _h
    simp only [List.length_drop, List.length_cons]
    omega
  · simp

/-- The cleaned-content invariant: a string made only of non-`<` characters
and whole `<br>` markers (the shape the spec calls "segments separated by a
line-break marker", with no other tag). -/
inductive BrOnly : List Char → Prop
  | nil : BrOnly []
  | chr {c : Char} {s : List Char} : c ≠ '<' → BrOnly s → BrOnly (c :: s)
  | br {s : List Char} : BrOnly s → BrOnly (brTag ++ s)

/-- `input.split('<br>')` scanning helper: characters before the next
`<br>` occurrence are accumulated (reversed) in `acc`; at an occurrence the
accumulated chunk is emitted and scanning resumes after the marker. This is
the leftmost, non-overlapping semantics of JavaScript `String.split` with a
plain-string separator. -/
def splitBrAux (s acc : List Char) : List (List Char) :=
  match s with
  | [] => [acc.reverse]
  | c :: rest =>
    if (c :: rest).take 4 = brTag then acc.reverse :: splitBrAux ((c :: rest).drop 4) []
    else splitBrAux rest (c :: acc)
termination_by s.length
decreasing_by
  · simp
    omega
  · simp

/-- `input.split('<br>')` on a character list. -/
def splitBr (s : List Char) : List (List Char) := splitBrAux s []

/-- `texts` computation of `handleSubmit`:
`input ? input.split('<br>') : []` — an empty cleaned document yields the
empty segment sequence. -/
def splitContent (s : List Char) : List (List Char) :=
  if s = [] then [] else splitBr s

/-- `replaceMentTexts.join('<br>')`: JavaScript `Array.join` with the
`<br>` separator (`[].join` is the empty string). -/
def joinContent : List (List Char) → List Char
  | [] => []
  | [t] => t
  | t :: rest => t ++ brTag ++ joinContent rest

/-- The part of a `<br>`-join after its first element: one `<br>` marker
before each remaining element (so that
`joinContent (t :: l) = t ++ tailJoin l`). -/
def tailJoin : List (List Char) → List Char
  | [] => []
  | t :: rest => brTag ++ (t ++ tailJoin rest)

/-- Decimal digit characters, fuel-structured so that the kernel can
evaluate it. -/
def natCharsAux : ℕ → ℕ → List Char
  | 0, _ => []
  | fuel + 1, n =>
    if n < 10 then [Char.ofNat (48 + n)]
    else natCharsAux fuel (n / 10) ++ [Char.ofNat (48 + n % 10)]

/-- The decimal rendering of a natural number, as produced by the JavaScript
template interpolations `${i}` and `i.toString()`. The fuel `n + 1` always
suffices since the value shrinks by a factor of ten each step. -/
def natChars (n : ℕ) : List Char := natCharsAux (n + 1) n

/-- The highlight wrapper opening tag
`<span id="${i}" class="border-b-2 border-red-400">`. -/
def spanOpen (i : ℕ) : List Char :=
  "<span id=\"".data ++ natChars i ++ "\" class=\"border-b-2 border-red-400\">".data

/-- The highlight wrapper closing tag `</span>`. -/
def spanClose : List Char := "</span>".data

/-- The highlight wrapping of one buffered segment:
`` `<span id="${i}" class="border-b-2 border-red-400">${replaceMentTexts[i]}</span>` ``. -/
def wrapSpan (i : ℕ) (t : List Char) : List Char :=
  spanOpen i ++ t ++ spanClose

/-- The distinguishing head of a highlight wrapper, used to count wrappers
in rendered content. -/
def spanIdPat : List Char := "<span id=".data

/-- The characters of `spanIdPat` after its leading `<`. -/
def spanIdTail : List Char := "span id=".data

/-- The characters of the wrapper opening tag after the interpolated id. -/
def classTail : List Char := "\" class=\"border-b-2 border-red-400\">".data

/-- Whether a per-position result triggers highlighting: present and with
gpt score strictly above human score. -/
def isFlagged : Option InputTextResult → Bool
  | some x => decide (x.score.gpt > x.score.human)
  | none => false

/-- The highlight loop of `handleSubmit` acting on the replacement buffer:
for each index `i` below the result count, a present result whose gpt score
strictly exceeds its human score wraps `replaceMentTexts[i]` in the span
tag; absent results (`continue`) and indices past the result list leave the
buffer entry unchanged. (The JavaScript loop could also write past the end
of the buffer when there are more results than buffer entries; that case is
unreachable because both lists arise from the same `texts` array and is not
modelled.) -/
def highlightAux (i : ℕ) :
    List (List Char) → List (Option InputTextResult) → List (List Char)
  | buf, [] => buf
  | [], _ => []
  | t :: buf, r :: results =>
    (match r with
     | some x => if x.score.gpt > x.score.human then wrapSpan i t else t
     | none => t) :: highlightAux (i + 1) buf results

/-- The id-stamping of the same loop: every present result gets
`inputTextResults[i].id = i.toString()`. -/
def stampAux (i : ℕ) : List (Option InputTextResult) → List (Option InputTextResult)
  | [] => []
  | r :: results =>
    (match r with
     | some x => some { x with id := natChars i }
     | none => none) :: stampAux (i + 1) results

/-- One request issued by `verifyText`: the POST body `{id, data}`. -/
structure ApiCall where
  id : ℕ
  data : List Char
deriving DecidableEq

/-- `verifyText(textId, sentence)`: an empty (falsy) sentence returns
`undefined` without issuing a request; otherwise one `fetch` carrying
`{id: textId, data: sentence}` is issued. -/
def verifyText (textId : ℕ) (sentence : List Char) : Option ApiCall :=
  if sentence = [] then none else some ⟨textId, sentence⟩

/-- `texts.map((text, idx) => verifyText(idx, text))`: the per-segment call
slots, in segment order. -/
def callsAux (i : ℕ) : List (List Char) → List (Option ApiCall)
  | [] => []
  | t :: texts => verifyText i t :: callsAux (i + 1) texts

/-- The settled per-slot outcomes: an empty slot resolves to `undefined`
(no call was issued, so `result?.json()` yields `undefined`); an issued
call either yields its parsed body or fails (fetch rejection or JSON parse
error). -/
def responsesOf (api : ℕ → List Char → Except Unit InputTextResult)
    (calls : List (Option ApiCall)) : List (Except Unit (Option InputTextResult)) :=
  calls.map fun c =>
    match c with
    | none => .ok none
    | some call => (api call.id call.data).map some

/-- `Promise.all` over the settled outcomes: all values in order when every
one succeeded, and failure as soon as any one failed. -/
def collectOk : List (Except Unit (Option InputTextResult)) →
    Option (List (Option InputTextResult))
  | [] => some []
  | .ok v :: rest => (collectOk rest).map (v :: ·)
  | .error _ :: _ => none

/-- Mutable accumulator of the aggregation loop: `overallGptScore`,
`overallHumanScore` and `overallMetrics` before the divisions. -/
structure AggSums where
  gpt : ℚ
  human : ℚ
  coherence : ℚ
  repetition : ℚ
  personality : ℚ
  originality : ℚ
  errorTextCount : ℕ
deriving DecidableEq

/-- The initial accumulator (all sums zero). -/
def aggInit : AggSums := ⟨0, 0, 0, 0, 0, 0, 0⟩

/-- One iteration of `inputTextResults.forEach`: a result contributes to
every sum exactly when its `details` list is non-empty (truthy length).
The `|| 0` guards of the source are identities here because scores and
metrics are modelled as rationals, which are never `undefined`/`NaN`. -/
def aggStep (acc : AggSums) (r : InputTextResult) : AggSums :=
  if r.details.length ≠ 0 then
    { gpt := acc.gpt + r.score.gpt
      human := acc.human + r.score.human
      coherence := acc.coherence + r.metrics.coherence
      repetition := acc.repetition + r.metrics.repetition
      personality := acc.personality + r.metrics.personality
      originality := acc.originality + r.metrics.originality
      errorTextCount := acc.errorTextCount + 1 }
  else acc

/-- The aggregate-metrics computation of `handleSubmit` on the filtered
results: sums accumulated by `aggStep`, then each sub-metric sum divided by
`errorTextCount` and scaled by ten, and the gpt/human sums divided by the
total filtered-result count and scaled by one hundred. -/
def computeRating (results : List InputTextResult) : Rating :=
  let sums := results.foldl aggStep aggInit
  { gpt := jsScale (jsDiv sums.gpt results.length) 100
    human := jsScale (jsDiv sums.human results.length) 100
    metrics :=
      { coherence := jsScale (jsDiv sums.coherence sums.errorTextCount) 10
        repetition := jsScale (jsDiv sums.repetition sums.errorTextCount) 10
        personality := jsScale (jsDiv sums.personality sums.errorTextCount) 10
        originality := jsScale (jsDiv sums.originality sums.errorTextCount) 10
        errorTextCount := sums.errorTextCount } }

/-- Observable effects of the submission flow, in execution order. -/
inductive Event where
  | setLoading (b : Bool)
  | apiCall (c : ApiCall)
  | setResults (rs : List InputTextResult)
  | updateDoc (d : UserDocument)
  | logError
deriving DecidableEq

/-- The effect trace of `handleSubmit` from the segment list onward: the
`fetch` calls are dispatched while the call array is built (lines 100–104),
then `setIsLoading(true)` (line 106); when every call settles successfully
the highlight/stamp loop runs, the re-rendered content is joined, the
results are filtered to the truthy entries and published
(`setResults`), the rating is computed and the document updated
(`updateUserDocument`), and finally `setIsLoading(false)`; when any call
fails, the only further effect is the `console.log` of the `catch`.
(The `if (textInputRef.current)` guard around the highlight loop is always
true once the component is mounted and is not modelled.) -/
def submitTrace (api : ℕ → List Char → Except Unit InputTextResult)
    (texts : List (List Char)) (doc : UserDocument) : List Event :=
  let calls := callsAux 0 texts
  let dispatched := (calls.filterMap id).map Event.apiCall
  match collectOk (responsesOf api calls) with
  | some results =>
    let buffer := highlightAux 0 texts results
    let stamped := stampAux 0 results
    let filtered := stamped.filterMap id
    let rating := computeRating filtered
    dispatched ++
      [Event.setLoading true, Event.setResults filtered,
       Event.updateDoc { doc with
         content := joinContent buffer, rating := rating, results := filtered },
       Event.setLoading false]
  | none => dispatched ++ [Event.setLoading true, Event.logError]

/-- The segment sequence of `handleSubmit` for a given raw surface content:
tags other than `<br>` stripped, then `input ? input.split('<br>') : []`. -/
def submitTexts (input0 : List Char) : List (List Char) :=
  splitContent (stripTags input0)

/-- The whole submission flow from the raw surface content. -/
def handleSubmitTrace (api : ℕ → List Char → Except Unit InputTextResult)
    (input0 : List Char) (doc : UserDocument) : List Event :=
  submitTrace api (submitTexts input0) doc

/-- What the metrics panel (`TextMetrics`) renders. -/
inductive PanelView where
  | loader
  | scores (overall : JSNum) (shown : List (String × JSNum))
deriving DecidableEq

/-- `TextMetrics`: while the shared loading flag is set the loading
placeholder is rendered; otherwise the overall gpt score and every metrics
key except the internal `errorTextCount` counter, in insertion order.
(The `toFixed(2)` display formatting is not modelled.) -/
def renderPanel (isLoading : Bool) (doc : UserDocument) : PanelView :=
  if isLoading then .loader
  else
    .scores doc.rating.gpt
      [("coherence", doc.rating.metrics.coherence),
       ("repetition", doc.rating.metrics.repetition),
       ("personality", doc.rating.metrics.personality),
       ("originality", doc.rating.metrics.originality)]

/-! ### Counting occurrences of a pattern -/

theorem countSuff_nil (pat : List Char) : countSuff pat [] = 0 := rfl

theorem countSuff_cons (pat : List Char) (c : Char) (s : List Char) :
    countSuff pat (c :: s) =
      (if (c :: s).take pat.length = pat then 1 else 0) + countSuff pat s := rfl

theorem countSuff_cons_ne {pat : List Char} {c : Char} {s : List Char}
    (h : (c :: s).take pat.length ≠ pat) :
    countSuff pat (c :: s) = countSuff pat s := by
  rw [countSuff_cons, if_neg h, Nat.zero_add]

theorem take_ne_of_head_ne {c h : Char} {s p : List Char} (hne : c ≠ h) :
    (c :: s).take (h :: p).length ≠ h :: p := by
  simp only [List.length_cons, List.take_succ_cons, ne_eq, List.cons.injEq, not_and]
  intro hq
  exact absurd hq hne

theorem take_ne_of_second_ne {c₀ c₁ d : Char} {p s : List Char} (h : d ≠ c₁) :
    (c₀ :: d :: s).take (c₀ :: c₁ :: p).length ≠ c₀ :: c₁ :: p := by
  simp only [List.length_cons, List.take_succ_cons, ne_eq, List.cons.injEq, not_and]
  intro _ hq
  exact absurd hq h

theorem countSuff_append_clean {p' x : List Char} (hx : '<' ∉ x) (t : List Char) :
    countSuff ('<' :: p') (x ++ t) = countSuff ('<' :: p') t := by
  induction x with
  | nil => simp
  | cons c x ih =>
    have hc : c ≠ '<' := fun hq => hx (hq ▸ List.mem_cons_self c x)
    rw [List.cons_append, countSuff_cons_ne (take_ne_of_head_ne hc)]
    exact ih (fun hm => hx (List.mem_cons_of_mem _ hm))

theorem countSuff_eq_zero_clean {p' x : List Char} (hx : '<' ∉ x) :
    countSuff ('<' :: p') x = 0 := by
  have h := @countSuff_append_clean p' x hx []
  rwa [List.append_nil, countSuff_nil] at h

theorem countSuff_append_self {p' : List Char} (hp : '<' ∉ p') (t : List Char) :
    countSuff ('<' :: p') (('<' :: p') ++ t) = 1 + countSuff ('<' :: p') t := by
  rw [List.cons_append, countSuff_cons]
  have htake : ('<' :: (p' ++ t)).take ('<' :: p').length = '<' :: p' := by
    have h := List.take_left ('<' :: p') t
    rwa [List.cons_append] at h
  rw [if_pos htake, countSuff_append_clean hp]

/-! ### The characters of the tags and of decimal renderings -/

theorem brTag_chars : brTag = ['<', 'b', 'r', '>'] := by decide

theorem spanIdPat_eq : spanIdPat = '<' :: spanIdTail := by decide

theorem spanIdTail_no_lt : '<' ∉ spanIdTail := by decide

theorem classTail_no_lt : '<' ∉ classTail := by decide

theorem spanOpen_eq (i : ℕ) :
    spanOpen i = spanIdPat ++ '"' :: (natChars i ++ classTail) := by
  unfold spanOpen spanIdPat classTail
  rw [show "<span id=\"".data = "<span id=".data ++ ['"'] from by decide]
  simp [List.append_assoc]

theorem natCharsAux_digits {fuel n : ℕ} :
    ∀ c ∈ natCharsAux fuel n, ∃ d, d < 10 ∧ c = Char.ofNat (48 + d) := by
  induction fuel generalizing n with
  | zero => simp [natCharsAux]
  | succ fuel ih =>
    intro c hc
    simp only [natCharsAux] at hc
    split at hc
    · next hlt =>
      simp only [List.mem_singleton] at hc
      exact ⟨n, hlt, hc⟩
    · rcases List.mem_append.mp hc with h | h
      · exact ih _ h
      · simp only [List.mem_singleton] at h
        exact ⟨n % 10, Nat.mod_lt _ (by omega), h⟩

theorem natChars_no_lt (n : ℕ) : '<' ∉ natChars n := by
  intro hm
  obtain ⟨d, hd, he⟩ := natCharsAux_digits _ hm
  interval_cases d <;> exact absurd he (by decide)

theorem open_mid_clean (i : ℕ) : '<' ∉ ('"' :: (natChars i ++ classTail)) := by
  intro h
  rcases List.mem_cons.mp h with h | h
  · exact absurd h (by decide)
  · rcases List.mem_append.mp h with h | h
    · exact natChars_no_lt i h
    · exact classTail_no_lt h

theorem spanIdPat_chars : spanIdPat = ['<', 's', 'p', 'a', 'n', ' ', 'i', 'd', '='] := by decide

theorem countSuff_pat_spanOpen (i : ℕ) (t : List Char) :
    countSuff spanIdPat (spanOpen i ++ t) = 1 + countSuff spanIdPat t := by
  rw [spanOpen_eq, List.append_assoc, spanIdPat_eq,
    countSuff_append_self spanIdTail_no_lt,
    countSuff_append_clean (open_mid_clean i)]

theorem countSuff_pat_spanClose (t : List Char) :
    countSuff spanIdPat (spanClose ++ t) = countSuff spanIdPat t := by
  rw [show spanClose = '<' :: '/' :: "span>".data from by decide,
    List.cons_append, List.cons_append, spanIdPat_chars,
    countSuff_cons_ne (take_ne_of_second_ne (by decide)),
    ← List.cons_append, countSuff_append_clean (by decide)]

theorem countSuff_pat_brTag (t : List Char) :
    countSuff spanIdPat (brTag ++ t) = countSuff spanIdPat t := by
  rw [brTag_chars, List.cons_append, List.cons_append, spanIdPat_chars,
    countSuff_cons_ne (take_ne_of_second_ne (by decide)),
    ← List.cons_append, countSuff_append_clean (by decide)]

theorem countSuff_pat_wrap {s : List Char} (hs : '<' ∉ s) (i : ℕ) (t : List Char) :
    countSuff spanIdPat (wrapSpan i s ++ t) = 1 + countSuff spanIdPat t := by
  unfold wrapSpan
  rw [List.append_assoc, List.append_assoc, countSuff_pat_spanOpen, spanIdPat_eq,
    countSuff_append_clean hs, ← spanIdPat_eq, countSuff_pat_spanClose]

theorem countSuff_br_br (t : List Char) :
    countSuff brTag (brTag ++ t) = 1 + countSuff brTag t := by
  rw [brTag_chars]
  exact countSuff_append_self (by decide) t

theorem countSuff_br_spanOpen (i : ℕ) (t : List Char) :
    countSuff brTag (spanOpen i ++ t) = countSuff brTag t := by
  rw [spanOpen_eq, List.append_assoc, spanIdPat_chars, List.cons_append,
    List.cons_append, brTag_chars,
    countSuff_cons_ne (take_ne_of_second_ne (by decide)),
    ← List.cons_append, countSuff_append_clean (by decide),
    countSuff_append_clean (open_mid_clean i)]

theorem countSuff_br_spanClose (t : List Char) :
    countSuff brTag (spanClose ++ t) = countSuff brTag t := by
  rw [show spanClose = '<' :: '/' :: "span>".data from by decide,
    List.cons_append, List.cons_append, brTag_chars,
    countSuff_cons_ne (take_ne_of_second_ne (by decide)),
    ← List.cons_append, countSuff_append_clean (by decide)]

theorem countSuff_br_wrap {s : List Char} (hs : '<' ∉ s) (i : ℕ) (t : List Char) :
    countSuff brTag (wrapSpan i s ++ t) = countSuff brTag t := by
  unfold wrapSpan
  rw [List.append_assoc, List.append_assoc, countSuff_br_spanOpen, brTag_chars,
    countSuff_append_clean hs, ← brTag_chars, countSuff_br_spanClose]

/-! ### Joining, highlighting and stamping -/

theorem joinContent_cons_eq (t : List Char) (l : List (List Char)) :
    joinContent (t :: l) = t ++ tailJoin l := by
  induction l generalizing t with
  | nil => simp [joinContent, tailJoin]
  | cons u r ih =>
    rw [show joinContent (t :: u :: r) = t ++ brTag ++ joinContent (u :: r) from rfl]
    rw [ih u, tailJoin]
    simp [List.append_assoc]

theorem highlightAux_cons_some (i : ℕ) (t : List Char) (ts : List (List Char))
    (x : InputTextResult) (rs : List (Option InputTextResult)) :
    highlightAux i (t :: ts) (some x :: rs) =
      (if x.score.gpt > x.score.human then wrapSpan i t else t) ::
        highlightAux (i + 1) ts rs := rfl

theorem highlightAux_cons_none (i : ℕ) (t : List Char) (ts : List (List Char))
    (rs : List (Option InputTextResult)) :
    highlightAux i (t :: ts) (none :: rs) = t :: highlightAux (i + 1) ts rs := rfl

theorem highlightAux_length (i : ℕ) (buf : List (List Char))
    (rs : List (Option InputTextResult)) :
    (highlightAux i buf rs).length = buf.length := by
  induction buf generalizing i rs with
  | nil => cases rs <;> rfl
  | cons t buf ih =>
    cases rs with
    | nil => rfl
    | cons r rs =>
      cases r with
      | none => rw [highlightAux_cons_none]; simp [ih]
      | some x => rw [highlightAux_cons_some]; simp [ih]

theorem countSuff_tailJoin_highlight (i0 : ℕ) (texts : List (List Char))
    (results : List (Option InputTextResult))
    (hlen : results.length = texts.length)
    (hclean : ∀ t ∈ texts, '<' ∉ t) :
    countSuff spanIdPat (tailJoin (highlightAux i0 texts results)) =
      results.countP isFlagged := by
  induction texts generalizing i0 results with
  | nil =>
    cases results with
    | nil => rfl
    | cons r rs => simp at hlen
  | cons t ts ih =>
    cases results with
    | nil => simp at hlen
    | cons r rs =>
      have hlen' : rs.length = ts.length := by
        simpa using hlen
      have hct : '<' ∉ t := hclean t (List.mem_cons_self _ _)
      have hcr : ∀ u ∈ ts, '<' ∉ u := fun u hu => hclean u (List.mem_cons_of_mem _ hu)
      cases r with
      | none =>
        rw [highlightAux_cons_none, tailJoin, countSuff_pat_brTag, spanIdPat_eq,
          countSuff_append_clean hct, ← spanIdPat_eq, ih (i0 + 1) rs hlen' hcr]
        simp [List.countP_cons, isFlagged]
      | some x =>
        by_cases hgt : x.score.gpt > x.score.human
        · rw [highlightAux_cons_some, if_pos hgt, tailJoin, countSuff_pat_brTag,
            countSuff_pat_wrap hct, ih (i0 + 1) rs hlen' hcr]
          simp only [List.countP_cons, isFlagged]
          rw [if_pos (by simpa using hgt)]
          omega
        · rw [highlightAux_cons_some, if_neg hgt, tailJoin, countSuff_pat_brTag,
            spanIdPat_eq, countSuff_append_clean hct, ← spanIdPat_eq,
            ih (i0 + 1) rs hlen' hcr]
          simp only [List.countP_cons, isFlagged]
          rw [if_neg (by simpa using hgt)]
          omega

theorem countSuff_joinContent_highlight (texts : List (List Char))
    (results : List (Option InputTextResult))
    (hlen : results.length = texts.length)
    (hclean : ∀ t ∈ texts, '<' ∉ t) :
    countSuff spanIdPat (joinContent (highlightAux 0 texts results)) =
      results.countP isFlagged := by
  cases texts with
  | nil =>
    cases results with
    | nil => rfl
    | cons r rs => simp at hlen
  | cons t ts =>
    cases results with
    | nil => simp at hlen
    | cons r rs =>
      have hlen' : rs.length = ts.length := by simpa using hlen
      have hct : '<' ∉ t := hclean t (List.mem_cons_self _ _)
      have hcr : ∀ u ∈ ts, '<' ∉ u := fun u hu => hclean u (List.mem_cons_of_mem _ hu)
      cases r with
      | none =>
        rw [highlightAux_cons_none, joinContent_cons_eq, spanIdPat_eq,
          countSuff_append_clean hct, ← spanIdPat_eq,
          countSuff_tailJoin_highlight 1 ts rs hlen' hcr]
        simp [List.countP_cons, isFlagged]
      | some x =>
        by_cases hgt : x.score.gpt > x.score.human
        · rw [highlightAux_cons_some, if_pos hgt, joinContent_cons_eq,
            countSuff_pat_wrap hct,
            countSuff_tailJoin_highlight 1 ts rs hlen' hcr]
          simp only [List.countP_cons, isFlagged]
          rw [if_pos (by simpa using hgt)]
          omega
        · rw [highlightAux_cons_some, if_neg hgt, joinContent_cons_eq,
            spanIdPat_eq, countSuff_append_clean hct, ← spanIdPat_eq,
            countSuff_tailJoin_highlight 1 ts rs hlen' hcr]
          simp only [List.countP_cons, isFlagged]
          rw [if_neg (by simpa using hgt)]
          omega

theorem highlightAux_cons (i : ℕ) (t : List Char) (ts : List (List Char))
    (r : Option InputTextResult) (rs : List (Option InputTextResult)) :
    highlightAux i (t :: ts) (r :: rs) =
      (match r with
       | some x => if x.score.gpt > x.score.human then wrapSpan i t else t
       | none => t) :: highlightAux (i + 1) ts rs := rfl

theorem highlightAux_get?_some (i0 : ℕ) (texts : List (List Char))
    (results : List (Option InputTextResult)) (j : ℕ) (x : InputTextResult)
    (t : List Char) (hr : results.get? j = some (some x))
    (ht : texts.get? j = some t) :
    (highlightAux i0 texts results).get? j =
      some (if x.score.gpt > x.score.human then wrapSpan (i0 + j) t else t) := by
  induction texts generalizing i0 results j with
  | nil => simp at ht
  | cons u ts ih =>
    cases results with
    | nil => simp at hr
    | cons r rs =>
      cases j with
      | zero =>
        rw [List.get?_cons_zero] at hr ht
        obtain rfl : r = some x := by simpa using hr
        obtain rfl : u = t := by simpa using ht
        rw [highlightAux_cons, List.get?_cons_zero]
        simp
      | succ j =>
        rw [List.get?_cons_succ] at hr ht
        rw [highlightAux_cons, List.get?_cons_succ,
          show i0 + (j + 1) = (i0 + 1) + j from by omega]
        exact ih (i0 + 1) rs j hr ht

theorem highlightAux_get?_none (i0 : ℕ) (texts : List (List Char))
    (results : List (Option InputTextResult)) (j : ℕ) (t : List Char)
    (hr : results.get? j = some none) (ht : texts.get? j = some t) :
    (highlightAux i0 texts results).get? j = some t := by
  induction texts generalizing i0 results j with
  | nil => simp at ht
  | cons u ts ih =>
    cases results with
    | nil => simp at hr
    | cons r rs =>
      cases j with
      | zero =>
        rw [List.get?_cons_zero] at hr ht
        obtain rfl : r = none := by simpa using hr
        obtain rfl : u = t := by simpa using ht
        rw [highlightAux_cons, List.get?_cons_zero]
      | succ j =>
        rw [List.get?_cons_succ] at hr ht
        rw [highlightAux_cons, List.get?_cons_succ]
        exact ih (i0 + 1) rs j hr ht

theorem stampAux_cons (i : ℕ) (r : Option InputTextResult)
    (rs : List (Option InputTextResult)) :
    stampAux i (r :: rs) =
      (match r with
       | some x => some { x with id := natChars i }
       | none => none) :: stampAux (i + 1) rs := rfl

theorem stampAux_get? (i0 : ℕ) (results : List (Option InputTextResult)) (j : ℕ) :
    (stampAux i0 results).get? j =
      (results.get? j).map
        (Option.map (fun x => { x with id := natChars (i0 + j) })) := by
  induction results generalizing i0 j with
  | nil => simp [stampAux]
  | cons r rs ih =>
    cases j with
    | zero =>
      cases r with
      | none => simp [stampAux_cons]
      | some x => simp [stampAux_cons]
    | succ j =>
      rw [stampAux_cons, List.get?_cons_succ, List.get?_cons_succ,
        ih (i0 + 1) j, show i0 + (j + 1) = (i0 + 1) + j from by omega]

theorem stampAux_filterMap_mem (i0 : ℕ) (rs : List (Option InputTextResult)) :
    ∀ x ∈ (stampAux i0 rs).filterMap id,
      ∃ j x0, rs.get? j = some (some x0) ∧
        x = { x0 with id := natChars (i0 + j) } := by
  induction rs generalizing i0 with
  | nil => simp [stampAux]
  | cons r rs ih =>
    intro x hx
    cases r with
    | none =>
      rw [stampAux_cons] at hx
      simp only [List.filterMap_cons, id] at hx
      obtain ⟨j, x0, h1, h2⟩ := ih (i0 + 1) x hx
      refine ⟨j + 1, x0, by simpa using h1, ?_⟩
      rw [h2, show i0 + 1 + j = i0 + (j + 1) from by omega]
    | some x0 =>
      rw [stampAux_cons] at hx
      simp only [List.filterMap_cons, id] at hx
      rcases List.mem_cons.mp hx with h | h
      · exact ⟨0, x0, by simp, by simpa using h⟩
      · obtain ⟨j, x1, h1, h2⟩ := ih (i0 + 1) x h
        refine ⟨j + 1, x1, by simpa using h1, ?_⟩
        rw [h2, show i0 + 1 + j = i0 + (j + 1) from by omega]

theorem stampAux_filterMap_mem_rev (i0 : ℕ) (rs : List (Option InputTextResult))
    (j : ℕ) (x0 : InputTextResult) (h : rs.get? j = some (some x0)) :
    { x0 with id := natChars (i0 + j) } ∈ (stampAux i0 rs).filterMap id := by
  induction rs generalizing i0 j with
  | nil => simp at h
  | cons r rs ih =>
    cases j with
    | zero =>
      rw [List.get?_cons_zero] at h
      obtain rfl : r = some x0 := by simpa using h
      rw [stampAux_cons]
      simp only [List.filterMap_cons, id]
      exact List.mem_cons_self _ _
    | succ j =>
      rw [List.get?_cons_succ] at h
      rw [stampAux_cons]
      have hmem := ih (i0 + 1) j h
      rw [show i0 + 1 + j = i0 + (j + 1) from by omega] at hmem
      cases r with
      | none =>
        simp only [List.filterMap_cons, id]
        exact hmem
      | some y =>
        simp only [List.filterMap_cons, id]
        exact List.mem_cons_of_mem _ hmem

/-! ### Calls and settled responses -/

theorem callsAux_length (i : ℕ) (texts : List (List Char)) :
    (callsAux i texts).length = texts.length := by
  induction texts generalizing i with
  | nil => rfl
  | cons t ts ih => simp [callsAux, ih]

theorem callsAux_get? (i0 : ℕ) (texts : List (List Char)) (j : ℕ) :
    (callsAux i0 texts).get? j =
      (texts.get? j).map (fun t => verifyText (i0 + j) t) := by
  induction texts generalizing i0 j with
  | nil => simp [callsAux]
  | cons t ts ih =>
    cases j with
    | zero => simp [callsAux]
    | succ j =>
      rw [callsAux, List.get?_cons_succ, List.get?_cons_succ, ih (i0 + 1) j,
        show i0 + (j + 1) = (i0 + 1) + j from by omega]

theorem collectOk_eq_some {l : List (Except Unit (Option InputTextResult))}
    {v : List (Option InputTextResult)} :
    collectOk l = some v ↔ l = v.map Except.ok := by
  induction l generalizing v with
  | nil =>
    constructor
    · intro h
      obtain rfl : v = [] := by simpa [collectOk] using h.symm
      rfl
    · intro h
      obtain rfl : v = [] := by
        cases v with
        | nil => rfl
        | cons a v => simp at h
      rfl
  | cons e rest ih =>
    cases e with
    | ok a =>
      cases v with
      | nil =>
        simp only [collectOk, List.map_nil]
        constructor
        · intro h
          simp only [Option.map_eq_some'] at h
          obtain ⟨v0, _, h2⟩ := h
          exact absurd h2 (by simp)
        · intro h
          simp at h
      | cons b v =>
        simp only [collectOk, List.map_cons]
        constructor
        · intro h
          simp only [Option.map_eq_some'] at h
          obtain ⟨v0, h1, h2⟩ := h
          obtain ⟨rfl, rfl⟩ : a = b ∧ v0 = v := by
            constructor <;> [exact (List.cons.injEq _ _ _ _ ▸ h2).1;
              exact (List.cons.injEq _ _ _ _ ▸ h2).2]
          rw [ih.mp h1]
        · intro h
          obtain ⟨h1, h2⟩ : Except.ok a = Except.ok b ∧ rest = v.map Except.ok := by
            exact ⟨(List.cons.injEq _ _ _ _ ▸ h).1, (List.cons.injEq _ _ _ _ ▸ h).2⟩
          obtain rfl : a = b := by simpa using h1
          rw [ih.mpr h2]
          rfl
    | error u =>
      simp only [collectOk]
      constructor
      · intro h
        simp at h
      · intro h
        cases v with
        | nil => simp at h
        | cons b v => simp at h

theorem collectOk_length {l : List (Except Unit (Option InputTextResult))}
    {v : List (Option InputTextResult)} (h : collectOk l = some v) :
    v.length = l.length := by
  rw [collectOk_eq_some] at h
  subst h
  simp

theorem responsesOf_length (api : ℕ → List Char → Except Unit InputTextResult)
    (calls : List (Option ApiCall)) :
    (responsesOf api calls).length = calls.length := by
  unfold responsesOf
  simp

theorem collectOk_get? {l : List (Except Unit (Option InputTextResult))}
    {v : List (Option InputTextResult)} (h : collectOk l = some v) (j : ℕ) :
    l.get? j = (v.get? j).map Except.ok := by
  rw [collectOk_eq_some] at h
  subst h
  rw [List.get?_map]

/-! ### Split/join round trip -/

theorem joinContent_cons_of_ne {l : List (List Char)} (t : List Char) (h : l ≠ []) :
    joinContent (t :: l) = t ++ brTag ++ joinContent l := by
  cases l with
  | nil => exact absurd rfl h
  | cons u r => rfl

theorem splitBrAux_ne_nil (s acc : List Char) : splitBrAux s acc ≠ [] := by
  induction s, acc using splitBrAux.induct with
  | case1 acc => simp [splitBrAux]
  | case2 acc c rest h ih =>
    simp only [splitBrAux]
    rw [if_pos h]
    simp
  | case3 acc c rest h ih =>
    simp only [splitBrAux]
    rw [if_neg h]
    exact ih

theorem joinContent_splitBrAux (s acc : List Char) :
    joinContent (splitBrAux s acc) = acc.reverse ++ s := by
  induction s, acc using splitBrAux.induct with
  | case1 acc => simp [splitBrAux, joinContent]
  | case2 acc c rest h ih =>
    simp only [splitBrAux]
    rw [if_pos h, joinContent_cons_of_ne _ (splitBrAux_ne_nil _ _), ih]
    have hx := List.take_append_drop 4 (c :: rest)
    rw [h] at hx
    simp only [List.reverse_nil, List.nil_append, List.append_assoc]
    rw [hx]
  | case3 acc c rest h ih =>
    simp only [splitBrAux]
    rw [if_neg h, ih]
    simp

/-- C3: for every content string, splitting on the `<br>` marker (an empty
content yielding the empty sequence) and joining the resulting segments
with `<br>` yields the content back. -/
theorem c3_segmentation_roundtrip (C : List Char) :
    joinContent (splitContent C) = C := by
  unfold splitContent
  split
  · next h => rw [h]; rfl
  · unfold splitBr
    rw [joinContent_splitBrAux]
    simp

/-- C2: with `N` segments and `N` successful results, the re-rendered
content contains exactly as many highlight wrappers as there are positions
whose result has gpt score strictly above human score; the wrapper at
position `j` carries the id `j`; and every present result has its id field
stamped with its position rendered as a decimal string. -/
theorem c2_highlight_render (texts : List (List Char))
    (results : List (Option InputTextResult))
    (hlen : results.length = texts.length)
    (_hsome : ∀ r ∈ results, r ≠ none)
    (hclean : ∀ t ∈ texts, '<' ∉ t) :
    countSuff spanIdPat (joinContent (highlightAux 0 texts results)) =
      results.countP isFlagged
    ∧ (∀ j x t, results.get? j = some (some x) → texts.get? j = some t →
        (highlightAux 0 texts results).get? j =
          some (if x.score.gpt > x.score.human then wrapSpan j t else t))
    ∧ (∀ j x, results.get? j = some (some x) →
        (stampAux 0 results).get? j = some (some { x with id := natChars j })) := by
  refine ⟨countSuff_joinContent_highlight texts results hlen hclean, ?_, ?_⟩
  · intro j x t hr ht
    have h := highlightAux_get?_some 0 texts results j x t hr ht
    simpa using h
  · intro j x hr
    rw [stampAux_get?, hr]
    simp

/-- Closed instance of `c2_highlight_render`: two segments, the first
flagged (gpt 1 over human 0), the second not (gpt 0 under human 1), so the
rendered content carries exactly one wrapper. -/
theorem c2_highlight_render_witness :
    countSuff spanIdPat (joinContent (highlightAux 0 [['a'], ['b']]
        [some ⟨[], ⟨1, 0⟩, ⟨0, 0, 0, 0⟩, []⟩, some ⟨[], ⟨0, 1⟩, ⟨0, 0, 0, 0⟩, []⟩])) =
      List.countP isFlagged
        [some ⟨[], ⟨1, 0⟩, ⟨0, 0, 0, 0⟩, []⟩, some ⟨[], ⟨0, 1⟩, ⟨0, 0, 0, 0⟩, []⟩] :=
  (c2_highlight_render [['a'], ['b']]
    [some ⟨[], ⟨1, 0⟩, ⟨0, 0, 0, 0⟩, []⟩, some ⟨[], ⟨0, 1⟩, ⟨0, 0, 0, 0⟩, []⟩]
    (by decide) (by decide) (by decide)).1

/-! ### Aggregation -/

theorem foldl_aggStep (rs : List InputTextResult) (a : AggSums) :
    rs.foldl aggStep a =
      { gpt := a.gpt +
          (((rs.filter fun r => r.details.length ≠ 0).map fun r => r.score.gpt).sum)
        human := a.human +
          (((rs.filter fun r => r.details.length ≠ 0).map fun r => r.score.human).sum)
        coherence := a.coherence +
          (((rs.filter fun r => r.details.length ≠ 0).map fun r => r.metrics.coherence).sum)
        repetition := a.repetition +
          (((rs.filter fun r => r.details.length ≠ 0).map fun r => r.metrics.repetition).sum)
        personality := a.personality +
          (((rs.filter fun r => r.details.length ≠ 0).map fun r => r.metrics.personality).sum)
        originality := a.originality +
          (((rs.filter fun r => r.details.length ≠ 0).map fun r => r.metrics.originality).sum)
        errorTextCount := a.errorTextCount +
          (rs.filter fun r => r.details.length ≠ 0).length } := by
  induction rs generalizing a with
  | nil => simp
  | cons r rs ih =>
    rw [List.foldl_cons, ih (aggStep a r)]
    by_cases hd : r.details.length ≠ 0
    · have hstep : aggStep a r =
          { gpt := a.gpt + r.score.gpt
            human := a.human + r.score.human
            coherence := a.coherence + r.metrics.coherence
            repetition := a.repetition + r.metrics.repetition
            personality := a.personality + r.metrics.personality
            originality := a.originality + r.metrics.originality
            errorTextCount := a.errorTextCount + 1 } := by
        rw [aggStep, if_pos hd]
      rw [hstep, List.filter_cons, if_pos (by simpa using hd)]
      simp only [List.map_cons, List.sum_cons, List.length_cons, AggSums.mk.injEq]
      refine ⟨by ring, by ring, by ring, by ring, by ring, by ring, by omega⟩
    · have hstep : aggStep a r = a := by
        rw [aggStep, if_neg hd]
      rw [hstep, List.filter_cons, if_neg (by simpa using hd)]

/-- C1 (amended): when exactly `K > 0` of the filtered results have a
non-empty details list, each displayed sub-metric is the sum of that metric
over the `K` contributing results, divided by `K` and scaled by ten; the
overall gpt/human percentages are the sums of the gpt resp. human scores
over the `K` contributing results (not over all filtered results), divided
by the total filtered-result count and scaled by one hundred. -/
theorem c1_aggregation_amended (rs : List InputTextResult) (K : ℕ)
    (hK : (rs.filter fun r => r.details.length ≠ 0).length = K)
    (hpos : 0 < K) :
    let contrib := rs.filter fun r => r.details.length ≠ 0
    (computeRating rs).metrics.coherence =
      JSNum.num (((contrib.map fun r => r.metrics.coherence).sum / (K : ℚ)) * 10) ∧
    (computeRating rs).metrics.repetition =
      JSNum.num (((contrib.map fun r => r.metrics.repetition).sum / (K : ℚ)) * 10) ∧
    (computeRating rs).metrics.personality =
      JSNum.num (((contrib.map fun r => r.metrics.personality).sum / (K : ℚ)) * 10) ∧
    (computeRating rs).metrics.originality =
      JSNum.num (((contrib.map fun r => r.metrics.originality).sum / (K : ℚ)) * 10) ∧
    (computeRating rs).metrics.errorTextCount = K ∧
    (computeRating rs).gpt =
      JSNum.num (((contrib.map fun r => r.score.gpt).sum / (rs.length : ℚ)) * 100) ∧
    (computeRating rs).human =
      JSNum.num (((contrib.map fun r => r.score.human).sum / (rs.length : ℚ)) * 100) := by
  intro contrib
  have hle : K ≤ rs.length := by
    rw [← hK]
    exact List.length_filter_le _ rs
  have hKQ : ((K : ℕ) : ℚ) ≠ 0 := Nat.cast_ne_zero.mpr (by omega)
  have hLQ : ((rs.length : ℕ) : ℚ) ≠ 0 := Nat.cast_ne_zero.mpr (by omega)
  unfold computeRating
  rw [foldl_aggStep rs aggInit]
  simp only [aggInit, zero_add, Nat.zero_add, hK, jsDiv, jsScale]
  rw [if_neg hKQ, if_neg hKQ, if_neg hKQ, if_neg hKQ, if_neg hLQ, if_neg hLQ]
  simp
  have hfe : (fun r : InputTextResult => !decide (r.details = [])) =
      (fun r => decide (r.details.length ≠ 0)) := by
    funext r
    cases hr : r.details <;> simp
  rw [hfe]
  exact ⟨rfl, rfl, rfl, rfl, rfl, rfl⟩

/-- Closed instance of `c1_aggregation_amended`: one contributing result
with coherence 2, so the displayed coherence is `(2 / 1) * 10`. -/
theorem c1_aggregation_witness :
    let rs : List InputTextResult := [⟨[], ⟨1, 0⟩, ⟨2, 4, 6, 8⟩, [()]⟩]
    let contrib := rs.filter fun r => r.details.length ≠ 0
    (computeRating rs).metrics.coherence =
      JSNum.num (((contrib.map fun r => r.metrics.coherence).sum / ((1 : ℕ) : ℚ)) * 10) :=
  (c1_aggregation_amended [⟨[], ⟨1, 0⟩, ⟨2, 4, 6, 8⟩, [()]⟩] 1
    (by decide) (by decide)).1

/-- C1 counterexample: two filtered results, the first with an empty
details list but gpt score 1, the second contributing with gpt score 0.
The code sums gpt only over contributing results, so the stored overall gpt
is `(0 / 2) * 100 = 0`, while the claim's value — the sum over all filtered
results divided by the total count — is `(1 / 2) * 100 = 50`. -/
theorem c1_aggregation_counterexample :
    (computeRating
        [⟨[], ⟨1, 0⟩, ⟨0, 0, 0, 0⟩, []⟩, ⟨[], ⟨0, 0⟩, ⟨1, 1, 1, 1⟩, [()]⟩]).gpt ≠
      JSNum.num
        ((((([⟨[], ⟨1, 0⟩, ⟨0, 0, 0, 0⟩, []⟩,
              ⟨[], ⟨0, 0⟩, ⟨1, 1, 1, 1⟩, [()]⟩] : List InputTextResult).map
            fun r => r.score.gpt).sum) /
          (([⟨[], ⟨1, 0⟩, ⟨0, 0, 0, 0⟩, []⟩,
             ⟨[], ⟨0, 0⟩, ⟨1, 1, 1, 1⟩, [()]⟩] : List InputTextResult).length : ℚ)) *
          100) := by
  unfold computeRating
  rw [foldl_aggStep]
  simp [aggInit, jsDiv, jsScale]

/-! ### The cleaned-content invariant and tag stripping -/

theorem matchTag_not_lt {c : Char} (l : List Char) (hc : c ≠ '<') :
    matchTag (c :: l) = none := by
  simp [matchTag, hc]

theorem matchTag_br (s : List Char) : matchTag (brTag ++ s) = none := by
  rw [brTag_chars]
  simp [List.cons_append, matchTag, tagBody, lookBr]

theorem BrOnly_drop_matchless {s : List Char} (h : BrOnly s) :
    ∀ p, matchTag (s.drop p) = none := by
  induction h with
  | nil =>
    intro p
    rw [List.drop_nil]
    rfl
  | chr hc _ ih =>
    intro p
    cases p with
    | zero => exact matchTag_not_lt _ hc
    | succ p =>
      rw [List.drop_succ_cons]
      exact ih p
  | br _ ih =>
    intro p
    rcases p with _ | _ | _ | _ | p
    · exact matchTag_br _
    · simp only [brTag_chars, List.cons_append, List.drop_succ_cons, List.drop_zero]
      exact matchTag_not_lt _ (by decide)
    · simp only [brTag_chars, List.cons_append, List.drop_succ_cons, List.drop_zero]
      exact matchTag_not_lt _ (by decide)
    · simp only [brTag_chars, List.cons_append, List.drop_succ_cons, List.drop_zero]
      exact matchTag_not_lt _ (by decide)
    · simp only [brTag_chars, List.cons_append, List.drop_succ_cons]
      exact ih p

theorem stripTags_of_matchless {s : List Char} (h : ∀ p, matchTag (s.drop p) = none) :
    stripTags s = s := by
  induction s with
  | nil => simp [stripTags]
  | cons c rest ih =>
    have h0 := h 0
    rw [List.drop_zero] at h0
    unfold stripTags
    split
    · next k hk =>
      rw [h0] at hk
      simp at hk
    · congr 1
      refine ih fun p => ?_
      have hp := h (p + 1)
      rwa [List.drop_succ_cons] at hp

/-- C6: on content satisfying the cleaned-content invariant (text and
`<br>` markers only), the strip pattern matches nowhere, so applying the
tag-stripping step twice equals applying it once. -/
theorem c6_strip_idempotent_on_cleaned {s : List Char} (h : BrOnly s) :
    stripTags (stripTags s) = stripTags s := by
  have hs := stripTags_of_matchless (BrOnly_drop_matchless h)
  rw [hs]
  exact hs

/-- Closed instance of `c6_strip_idempotent_on_cleaned` on `a<br>b`. -/
theorem c6_strip_idempotent_witness :
    stripTags (stripTags ('a' :: (brTag ++ ['b']))) =
      stripTags ('a' :: (brTag ++ ['b'])) :=
  c6_strip_idempotent_on_cleaned
    (BrOnly.chr (by decide) (BrOnly.br (BrOnly.chr (by decide) BrOnly.nil)))

/-! ### Paste handling -/

theorem pasteSanitize_nil : pasteSanitize [] = [] := rfl

theorem pasteSanitize_newline (rest : List Char) :
    pasteSanitize ('\n' :: rest) = brTag ++ pasteSanitize rest := by
  simp [pasteSanitize]

theorem pasteSanitize_other {c : Char} (rest : List Char) (hn : c ≠ '\n') :
    pasteSanitize (c :: rest) = c :: pasteSanitize rest := by
  simp [pasteSanitize, hn]

theorem countSuff_br_pasteSanitize {t : List Char} (h : '<' ∉ t) :
    countSuff brTag (pasteSanitize t) = t.count '\n' := by
  induction t with
  | nil => simp [pasteSanitize_nil, countSuff_nil]
  | cons c rest ih =>
    have hc : c ≠ '<' := fun he => h (he ▸ List.mem_cons_self _ _)
    have hrest : '<' ∉ rest := fun hm => h (List.mem_cons_of_mem _ hm)
    by_cases hn : c = '\n'
    · subst hn
      rw [pasteSanitize_newline, countSuff_br_br, ih hrest, List.count_cons]
      simp
      omega
    · rw [pasteSanitize_other rest hn, brTag_chars,
        countSuff_cons_ne (take_ne_of_head_ne hc), ← brTag_chars, ih hrest,
        List.count_cons]
      simp [hn]

theorem pasteSanitize_BrOnly {t : List Char} (h : '<' ∉ t) :
    BrOnly (pasteSanitize t) := by
  induction t with
  | nil => exact BrOnly.nil
  | cons c rest ih =>
    have hc : c ≠ '<' := fun he => h (he ▸ List.mem_cons_self _ _)
    have hrest : '<' ∉ rest := fun hm => h (List.mem_cons_of_mem _ hm)
    by_cases hn : c = '\n'
    · subst hn
      rw [pasteSanitize_newline]
      exact BrOnly.br (ih hrest)
    · rw [pasteSanitize_other rest hn]
      exact BrOnly.chr hc (ih hrest)

/-- C7 (amended): for pasted plain text containing no `<` character, the
sanitised insertion contains exactly one `<br>` marker per line break and
no other tag (the strip pattern matches nowhere in it); the sanitised text
is appended to the current content, and the updated content is persisted
onto the document. -/
theorem c7_paste_amended (cur clip : List Char) (doc : UserDocument)
    (h : '<' ∉ clip) :
    (handlePaste cur clip doc).1 = cur ++ pasteSanitize clip ∧
    (handlePaste cur clip doc).2.content = (handlePaste cur clip doc).1 ∧
    countSuff brTag (pasteSanitize clip) = clip.count '\n' ∧
    (∀ p, matchTag ((pasteSanitize clip).drop p) = none) :=
  ⟨rfl, rfl, countSuff_br_pasteSanitize h,
    BrOnly_drop_matchless (pasteSanitize_BrOnly h)⟩

/-- Closed instance of `c7_paste_amended`: pasting `hi` followed by one
line break. -/
theorem c7_paste_witness :
    (handlePaste [] ['h', 'i', '\n']
        ⟨[], ⟨JSNum.nan, JSNum.nan, ⟨JSNum.nan, JSNum.nan, JSNum.nan, JSNum.nan, 0⟩⟩, []⟩).1 =
      [] ++ pasteSanitize ['h', 'i', '\n'] ∧
    (handlePaste [] ['h', 'i', '\n']
        ⟨[], ⟨JSNum.nan, JSNum.nan, ⟨JSNum.nan, JSNum.nan, JSNum.nan, JSNum.nan, 0⟩⟩, []⟩).2.content =
      (handlePaste [] ['h', 'i', '\n']
        ⟨[], ⟨JSNum.nan, JSNum.nan, ⟨JSNum.nan, JSNum.nan, JSNum.nan, JSNum.nan, 0⟩⟩, []⟩).1 ∧
    countSuff brTag (pasteSanitize ['h', 'i', '\n']) = ['h', 'i', '\n'].count '\n' ∧
    (∀ p, matchTag ((pasteSanitize ['h', 'i', '\n']).drop p) = none) :=
  c7_paste_amended [] ['h', 'i', '\n']
    ⟨[], ⟨JSNum.nan, JSNum.nan, ⟨JSNum.nan, JSNum.nan, JSNum.nan, JSNum.nan, 0⟩⟩, []⟩
    (by decide)

/-- C7 counterexample: pasting the literal four-character text `<br>`
(which contains no line break) inserts content containing one line-break
marker, so the inserted content does not contain exactly as many markers
as there are line breaks in the pasted text. -/
theorem c7_paste_counterexample :
    countSuff brTag (pasteSanitize ['<', 'b', 'r', '>']) ≠
      ['<', 'b', 'r', '>'].count '\n' := by decide

/-! ### The submission pipeline -/

theorem submitTexts_nil : submitTexts [] = [] := by
  unfold submitTexts
  rw [show stripTags [] = [] from by simp [stripTags]]
  rfl

/-- C5: submitting an empty editable surface yields no segments, so the
effect trace contains no verification call, publishes the empty results
collection, and the aggregate computation completes, storing `NaN`
percentages and sub-metrics (the JavaScript value of `0 / 0`) on the
document rating before loading is reset. -/
theorem c5_empty_submission (api : ℕ → List Char → Except Unit InputTextResult)
    (doc : UserDocument) :
    handleSubmitTrace api [] doc =
      [Event.setLoading true, Event.setResults [],
       Event.updateDoc { doc with
         content := [],
         rating :=
           { gpt := JSNum.nan, human := JSNum.nan,
             metrics :=
               { coherence := JSNum.nan, repetition := JSNum.nan,
                 personality := JSNum.nan, originality := JSNum.nan,
                 errorTextCount := 0 } },
         results := [] },
       Event.setLoading false] := by
  unfold handleSubmitTrace
  rw [submitTexts_nil]
  rfl

theorem responsesOf_get? (api : ℕ → List Char → Except Unit InputTextResult)
    (calls : List (Option ApiCall)) (j : ℕ) :
    (responsesOf api calls).get? j =
      (calls.get? j).map
        (fun c => match c with
          | none => Except.ok none
          | some call => (api call.id call.data).map some) := by
  unfold responsesOf
  rw [List.get?_map]

/-- C4: for every segment position, a non-empty segment produces exactly
one call slot carrying `{id: position, data: segment}`, while an empty
segment produces an empty slot (no call); on the success path the empty
segment's entry is `undefined` before filtering (so the filtered collection
has no entry for that position), its stamped entry is likewise absent, and
the replacement buffer still holds the segment at its position for the
re-rendered join. -/
theorem c4_empty_segments (api : ℕ → List Char → Except Unit InputTextResult)
    (texts : List (List Char)) (results : List (Option InputTextResult))
    (hok : collectOk (responsesOf api (callsAux 0 texts)) = some results)
    (j : ℕ) (t : List Char) (ht : texts.get? j = some t) :
    (callsAux 0 texts).get? j =
      some (if t = [] then none else some ⟨j, t⟩) ∧
    (t = [] →
      results.get? j = some none ∧
      (stampAux 0 results).get? j = some none ∧
      (highlightAux 0 texts results).get? j = some t) := by
  have hcall : (callsAux 0 texts).get? j = some (verifyText j t) := by
    rw [callsAux_get?, ht]
    simp
  constructor
  · rw [hcall]
    unfold verifyText
    split <;> rfl
  · intro hempty
    subst hempty
    have hresp : (responsesOf api (callsAux 0 texts)).get? j =
        some (Except.ok none) := by
      rw [responsesOf_get?, hcall]
      simp [verifyText]
    have hres : results.get? j = some none := by
      have hc := collectOk_get? hok j
      rw [hresp] at hc
      rcases Option.map_eq_some'.mp hc.symm with ⟨a, ha1, ha2⟩
      obtain rfl : a = none := by simpa using ha2
      exact ha1
    refine ⟨hres, ?_, highlightAux_get?_none 0 texts results j [] hres ht⟩
    rw [stampAux_get?, hres]
    simp

/-- Closed instance of `c4_empty_segments`: two segments, the first empty
(slot without call) and the second non-empty. -/
theorem c4_empty_segments_witness :
    (callsAux 0 [[], ['a']]).get? 0 =
      some (if ([] : List Char) = [] then none else some ⟨0, []⟩) ∧
    (([] : List Char) = [] →
      ([none, some ⟨[], ⟨1, 1⟩, ⟨0, 0, 0, 0⟩, []⟩] :
          List (Option InputTextResult)).get? 0 = some none ∧
      (stampAux 0 [none, some ⟨[], ⟨1, 1⟩, ⟨0, 0, 0, 0⟩, []⟩]).get? 0 = some none ∧
      (highlightAux 0 [[], ['a']]
        [none, some ⟨[], ⟨1, 1⟩, ⟨0, 0, 0, 0⟩, []⟩]).get? 0 = some []) :=
  c4_empty_segments (fun _ _ => Except.ok ⟨[], ⟨1, 1⟩, ⟨0, 0, 0, 0⟩, []⟩)
    [[], ['a']] [none, some ⟨[], ⟨1, 1⟩, ⟨0, 0, 0, 0⟩, []⟩]
    (by decide) 0 [] (by decide)

/-! ### Effect ordering -/

theorem submitTrace_success (api : ℕ → List Char → Except Unit InputTextResult)
    (texts : List (List Char)) (doc : UserDocument)
    (results : List (Option InputTextResult))
    (hok : collectOk (responsesOf api (callsAux 0 texts)) = some results) :
    submitTrace api texts doc =
      (((callsAux 0 texts).filterMap id).map Event.apiCall) ++
        [Event.setLoading true,
         Event.setResults ((stampAux 0 results).filterMap id),
         Event.updateDoc { doc with
           content := joinContent (highlightAux 0 texts results),
           rating := computeRating ((stampAux 0 results).filterMap id),
           results := (stampAux 0 results).filterMap id },
         Event.setLoading false] := by
  unfold submitTrace
  simp only [hok]

theorem submitTrace_failure (api : ℕ → List Char → Except Unit InputTextResult)
    (texts : List (List Char)) (doc : UserDocument)
    (hfail : collectOk (responsesOf api (callsAux 0 texts)) = none) :
    submitTrace api texts doc =
      (((callsAux 0 texts).filterMap id).map Event.apiCall) ++
        [Event.setLoading true, Event.logError] := by
  unfold submitTrace
  simp only [hfail]

/-- C9 (amended): in the effect trace of every submission, every
verification-call dispatch strictly precedes the `setLoading true` signal
(the `fetch` calls run while the call array is built, before
`setIsLoading(true)`), and a `setLoading false` signal occurs only after
the document update that persists content, rating and filtered results. -/
theorem c9_loading_order_amended (api : ℕ → List Char → Except Unit InputTextResult)
    (texts : List (List Char)) (doc : UserDocument) :
    (∀ i j c, (submitTrace api texts doc).get? i = some (Event.apiCall c) →
      (submitTrace api texts doc).get? j = some (Event.setLoading true) → i < j) ∧
    (∀ i, (submitTrace api texts doc).get? i = some (Event.setLoading false) →
      ∃ j d, j < i ∧
        (submitTrace api texts doc).get? j = some (Event.updateDoc d)) := by
  set D := ((callsAux 0 texts).filterMap id).map Event.apiCall with hD
  have hDapi : ∀ i e, D.get? i = some e → ∃ c, e = Event.apiCall c := by
    intro i e he
    rw [hD, List.get?_map] at he
    rcases Option.map_eq_some'.mp he with ⟨c, _, hc⟩
    exact ⟨c, hc.symm⟩
  cases hok : collectOk (responsesOf api (callsAux 0 texts)) with
  | some results =>
    rw [submitTrace_success api texts doc results hok, ← hD]
    constructor
    · intro i j c hi hj
      have hin : i < D.length := by
        by_contra hge
        push_neg at hge
        rw [List.get?_append_right hge] at hi
        have hmem := List.get?_mem hi
        simp at hmem
      have hjn : ¬ j < D.length := by
        intro hlt
        rw [List.get?_append hlt] at hj
        obtain ⟨c', hc'⟩ := hDapi j _ hj
        simp at hc'
      omega
    · intro i hi
      have hin : ¬ i < D.length := by
        intro hlt
        rw [List.get?_append hlt] at hi
        obtain ⟨c', hc'⟩ := hDapi i _ hi
        simp at hc'
      push_neg at hin
      rw [List.get?_append_right hin] at hi
      have hidx : i - D.length = 3 := by
        rcases h3 : i - D.length with _ | _ | _ | _ | k <;> rw [h3] at hi <;>
          simp at hi
      refine ⟨D.length + 2,
        { doc with
          content := joinContent (highlightAux 0 texts results),
          rating := computeRating ((stampAux 0 results).filterMap id),
          results := (stampAux 0 results).filterMap id }, by omega, ?_⟩
      rw [List.get?_append_right (by omega)]
      rw [show D.length + 2 - D.length = 2 from by omega]
      rfl
  | none =>
    rw [submitTrace_failure api texts doc hok, ← hD]
    constructor
    · intro i j c hi hj
      have hin : i < D.length := by
        by_contra hge
        push_neg at hge
        rw [List.get?_append_right hge] at hi
        have hmem := List.get?_mem hi
        simp at hmem
      have hjn : ¬ j < D.length := by
        intro hlt
        rw [List.get?_append hlt] at hj
        obtain ⟨c', hc'⟩ := hDapi j _ hj
        simp at hc'
      omega
    · intro i hi
      exfalso
      rcases Nat.lt_or_ge i D.length with hlt | hge
      · rw [List.get?_append hlt] at hi
        obtain ⟨c', hc'⟩ := hDapi i _ hi
        simp at hc'
      · rw [List.get?_append_right hge] at hi
        have hmem := List.get?_mem hi
        simp at hmem

/-- Closed instance of `c9_loading_order_amended`: one segment, whose call
dispatch sits at trace position 0, before `setLoading true` at position 1. -/
theorem c9_loading_order_witness :
    (submitTrace (fun _ _ => Except.error ()) [['a']]
        ⟨[], ⟨JSNum.nan, JSNum.nan, ⟨JSNum.nan, JSNum.nan, JSNum.nan, JSNum.nan, 0⟩⟩, []⟩).get? 0 =
      some (Event.apiCall ⟨0, ['a']⟩) ∧ (0 : ℕ) < 1 :=
  ⟨by decide,
    (c9_loading_order_amended (fun _ _ => Except.error ()) [['a']]
      ⟨[], ⟨JSNum.nan, JSNum.nan, ⟨JSNum.nan, JSNum.nan, JSNum.nan, JSNum.nan, 0⟩⟩, []⟩).1
      0 1 ⟨0, ['a']⟩ (by decide) (by decide)⟩

/-- C9 counterexample: with one non-empty segment the call dispatch
occupies trace position 0 and `setLoading true` position 1, so it is false
that loading is signaled true before the calls are dispatched. -/
theorem c9_loading_order_counterexample :
    ¬ (∀ i j c,
        (submitTrace (fun _ _ => Except.error ()) [['a']]
            ⟨[], ⟨JSNum.nan, JSNum.nan,
              ⟨JSNum.nan, JSNum.nan, JSNum.nan, JSNum.nan, 0⟩⟩, []⟩).get? i =
          some (Event.setLoading true) →
        (submitTrace (fun _ _ => Except.error ()) [['a']]
            ⟨[], ⟨JSNum.nan, JSNum.nan,
              ⟨JSNum.nan, JSNum.nan, JSNum.nan, JSNum.nan, 0⟩⟩, []⟩).get? j =
          some (Event.apiCall c) → i < j) := by
  intro h
  have := h 1 0 ⟨0, ['a']⟩ (by decide) (by decide)
  omega

/-- C10: when any verification call or body parse fails, the only effect
after the calls and the `setLoading true` signal is the error log: nothing
is published to the shared results, the document is not updated, and the
loading flag is never signaled false — so the metrics panel, which renders
its loading placeholder whenever the flag is set, keeps showing it. -/
theorem c10_failure_swallowed (api : ℕ → List Char → Except Unit InputTextResult)
    (texts : List (List Char)) (doc : UserDocument)
    (hfail : collectOk (responsesOf api (callsAux 0 texts)) = none) :
    (∀ rs, Event.setResults rs ∉ submitTrace api texts doc) ∧
    (∀ d, Event.updateDoc d ∉ submitTrace api texts doc) ∧
    Event.logError ∈ submitTrace api texts doc ∧
    (∀ b, Event.setLoading b ∈ submitTrace api texts doc → b = true) ∧
    Event.setLoading true ∈ submitTrace api texts doc ∧
    renderPanel true doc = PanelView.loader := by
  rw [submitTrace_failure api texts doc hfail]
  refine ⟨?_, ?_, ?_, ?_, ?_, rfl⟩
  · intro rs hmem
    rcases List.mem_append.mp hmem with hm | hm
    · rcases List.mem_map.mp hm with ⟨c, _, hc⟩
      simp at hc
    · simp at hm
  · intro d hmem
    rcases List.mem_append.mp hmem with hm | hm
    · rcases List.mem_map.mp hm with ⟨c, _, hc⟩
      simp at hc
    · simp at hm
  · exact List.mem_append_right _ (by simp)
  · intro b hb
    rcases List.mem_append.mp hb with hm | hm
    · rcases List.mem_map.mp hm with ⟨c, _, hc⟩
      simp at hc
    · simpa using hm
  · exact List.mem_append_right _ (by simp)

/-- Closed instance of `c10_failure_swallowed`: a failing call for the
single segment leaves the loading flag set. -/
theorem c10_failure_swallowed_witness :
    (∀ b, Event.setLoading b ∈
        submitTrace (fun _ _ => Except.error ()) [['a']]
          ⟨[], ⟨JSNum.nan, JSNum.nan,
            ⟨JSNum.nan, JSNum.nan, JSNum.nan, JSNum.nan, 0⟩⟩, []⟩ → b = true) ∧
    Event.setLoading true ∈
      submitTrace (fun _ _ => Except.error ()) [['a']]
        ⟨[], ⟨JSNum.nan, JSNum.nan,
          ⟨JSNum.nan, JSNum.nan, JSNum.nan, JSNum.nan, 0⟩⟩, []⟩ :=
  ⟨(c10_failure_swallowed (fun _ _ => Except.error ()) [['a']]
      ⟨[], ⟨JSNum.nan, JSNum.nan,
        ⟨JSNum.nan, JSNum.nan, JSNum.nan, JSNum.nan, 0⟩⟩, []⟩ (by decide)).2.2.2.1,
   (c10_failure_swallowed (fun _ _ => Except.error ()) [['a']]
      ⟨[], ⟨JSNum.nan, JSNum.nan,
        ⟨JSNum.nan, JSNum.nan, JSNum.nan, JSNum.nan, 0⟩⟩, []⟩ (by decide)).2.2.2.2.1⟩

/-! ### Splitting the re-rendered content back into segments -/

theorem brTag_len : brTag.length = 4 := by decide

theorem countSuff_br_zero_cons {c : Char} {x : List Char}
    (h : countSuff brTag (c :: x) = 0) :
    (c :: x).take 4 ≠ brTag ∧ countSuff brTag x = 0 := by
  rw [countSuff_cons, brTag_len] at h
  by_cases hc : (c :: x).take 4 = brTag
  · rw [if_pos hc] at h
    omega
  · rw [if_neg hc, Nat.zero_add] at h
    exact ⟨hc, h⟩

theorem splitBrAux_no_br {s : List Char} (h : countSuff brTag s = 0)
    (acc : List Char) : splitBrAux s acc = [acc.reverse ++ s] := by
  induction s generalizing acc with
  | nil => simp [splitBrAux]
  | cons c rest ih =>
    obtain ⟨h1, h2⟩ := countSuff_br_zero_cons h
    simp only [splitBrAux]
    rw [if_neg h1, ih h2]
    simp

theorem take4_boundary {c : Char} {x rest : List Char}
    (h : (c :: x).take 4 ≠ brTag) :
    (c :: (x ++ (brTag ++ rest))).take 4 ≠ brTag := by
  rcases x with _ | ⟨d, x⟩
  · rw [brTag_chars]
    simp [List.take, List.cons_append]
  · rcases x with _ | ⟨e, x⟩
    · rw [brTag_chars]
      simp [List.take, List.cons_append]
    · rcases x with _ | ⟨f, x⟩
      · rw [brTag_chars]
        simp [List.take, List.cons_append]
      · intro hq
        apply h
        rw [show (c :: d :: e :: f :: x).take 4 = [c, d, e, f] from by
          simp [List.take]]
        rw [show (c :: (d :: e :: f :: x ++ (brTag ++ rest))).take 4 =
            [c, d, e, f] from by simp [List.take, List.cons_append]] at hq
        exact hq

theorem splitBrAux_chunk {x : List Char} (hx : countSuff brTag x = 0)
    (rest acc : List Char) :
    splitBrAux (x ++ (brTag ++ rest)) acc =
      (acc.reverse ++ x) :: splitBrAux rest [] := by
  induction x generalizing acc with
  | nil =>
    rw [List.nil_append]
    rw [show brTag ++ rest = '<' :: ('b' :: 'r' :: '>' :: rest) from by
      rw [brTag_chars]; simp [List.cons_append]]
    simp only [splitBrAux]
    rw [if_pos (by rw [brTag_chars]; simp [List.take])]
    simp [List.drop]
  | cons c x ih =>
    obtain ⟨h1, h2⟩ := countSuff_br_zero_cons hx
    rw [List.cons_append]
    simp only [splitBrAux]
    rw [if_neg (take4_boundary h1), ih h2]
    simp

theorem splitBr_joinContent {L : List (List Char)} (hL : L ≠ [])
    (h : ∀ x ∈ L, countSuff brTag x = 0) :
    splitBr (joinContent L) = L := by
  induction L with
  | nil => exact absurd rfl hL
  | cons x L ih =>
    cases L with
    | nil =>
      unfold splitBr
      rw [show joinContent [x] = x from rfl,
        splitBrAux_no_br (h x (List.mem_cons_self _ _))]
      simp
    | cons y L' =>
      unfold splitBr
      rw [joinContent_cons_of_ne x (by simp), List.append_assoc,
        splitBrAux_chunk (h x (List.mem_cons_self _ _))]
      have hrec := ih (by simp) (fun z hz => h z (List.mem_cons_of_mem _ hz))
      unfold splitBr at hrec
      rw [hrec]
      simp

theorem highlightAux_mem (i0 : ℕ) (texts : List (List Char))
    (results : List (Option InputTextResult)) :
    ∀ x ∈ highlightAux i0 texts results,
      (∃ t ∈ texts, x = t) ∨ ∃ j t, t ∈ texts ∧ x = wrapSpan j t := by
  induction texts generalizing i0 results with
  | nil =>
    intro x hx
    cases results <;> simp [highlightAux] at hx
  | cons t ts ih =>
    intro x hx
    cases results with
    | nil => exact Or.inl ⟨x, hx, rfl⟩
    | cons r rs =>
      rw [highlightAux_cons] at hx
      rcases List.mem_cons.mp hx with hx | hx
      · cases r with
        | none => exact Or.inl ⟨t, List.mem_cons_self _ _, hx⟩
        | some xr =>
          dsimp only at hx
          by_cases hgt : xr.score.gpt > xr.score.human
          · rw [if_pos hgt] at hx
            exact Or.inr ⟨i0, t, List.mem_cons_self _ _, hx⟩
          · rw [if_neg hgt] at hx
            exact Or.inl ⟨t, List.mem_cons_self _ _, hx⟩
      · rcases ih (i0 + 1) rs x hx with ⟨u, hu, hxu⟩ | ⟨j, u, hu, hxu⟩
        · exact Or.inl ⟨u, List.mem_cons_of_mem _ hu, hxu⟩
        · exact Or.inr ⟨j, u, List.mem_cons_of_mem _ hu, hxu⟩

theorem countSuff_br_clean {x : List Char} (hx : '<' ∉ x) :
    countSuff brTag x = 0 := by
  rw [brTag_chars]
  exact countSuff_eq_zero_clean hx

theorem countSuff_br_wrap_nil {s : List Char} (hs : '<' ∉ s) (i : ℕ) :
    countSuff brTag (wrapSpan i s) = 0 := by
  have h := countSuff_br_wrap hs i []
  rwa [List.append_nil, countSuff_nil] at h

theorem collectOk_results_length {api : ℕ → List Char → Except Unit InputTextResult}
    {texts : List (List Char)} {results : List (Option InputTextResult)}
    (hok : collectOk (responsesOf api (callsAux 0 texts)) = some results) :
    results.length = texts.length := by
  have h1 := collectOk_length hok
  rwa [responsesOf_length, callsAux_length] at h1

/-- C8: on every successful submission the replacement buffer keeps one
entry per sent segment — the re-rendered content splits back into exactly
as many segments as were sent — even though the filtered results collection
may be shorter; and every surviving (filtered) result is the stamped copy
of the result at some position `j`, whose id is the decimal rendering of
`j` and which still designates segment `j` of the buffer (and conversely
every present result survives filtering with its stamped id). -/
theorem c8_correlation (api : ℕ → List Char → Except Unit InputTextResult)
    (texts : List (List Char)) (results : List (Option InputTextResult))
    (hok : collectOk (responsesOf api (callsAux 0 texts)) = some results)
    (hne : texts ≠ []) (hclean : ∀ t ∈ texts, '<' ∉ t) :
    (highlightAux 0 texts results).length = texts.length ∧
    splitBr (joinContent (highlightAux 0 texts results)) =
      highlightAux 0 texts results ∧
    (splitBr (joinContent (highlightAux 0 texts results))).length =
      (callsAux 0 texts).length ∧
    (∀ x ∈ (stampAux 0 results).filterMap id,
      ∃ j x0 t, results.get? j = some (some x0) ∧
        x = { x0 with id := natChars j } ∧ texts.get? j = some t ∧
        (highlightAux 0 texts results).get? j =
          some (if x0.score.gpt > x0.score.human then wrapSpan j t else t)) ∧
    (∀ j x0, results.get? j = some (some x0) →
      { x0 with id := natChars j } ∈ (stampAux 0 results).filterMap id) := by
  have hlen : results.length = texts.length := collectOk_results_length hok
  have hlenb := highlightAux_length 0 texts results
  have hsplit : splitBr (joinContent (highlightAux 0 texts results)) =
      highlightAux 0 texts results := by
    refine splitBr_joinContent ?_ ?_
    · intro hnil
      apply hne
      have := hlenb
      rw [hnil] at this
      cases texts with
      | nil => rfl
      | cons t ts => simp at this
    · intro x hx
      rcases highlightAux_mem 0 texts results x hx with ⟨t, ht, hxt⟩ | ⟨j, t, ht, hxt⟩
      · rw [hxt]
        exact countSuff_br_clean (hclean t ht)
      · rw [hxt]
        exact countSuff_br_wrap_nil (hclean t ht) j
  refine ⟨hlenb, hsplit, by rw [hsplit, hlenb, callsAux_length], ?_, ?_⟩
  · intro x hx
    obtain ⟨j, x0, hj, hx0⟩ := stampAux_filterMap_mem 0 results x hx
    rw [Nat.zero_add] at hx0
    obtain ⟨hjb, _⟩ := List.get?_eq_some.mp hj
    have hjt : j < texts.length := by omega
    obtain ⟨t, ht⟩ : ∃ t, texts.get? j = some t := by
      cases h' : texts.get? j with
      | some t => exact ⟨t, rfl⟩
      | none =>
        rw [List.get?_eq_none] at h'
        omega
    refine ⟨j, x0, t, hj, hx0, ht, ?_⟩
    have hg := highlightAux_get?_some 0 texts results j x0 t hj ht
    rwa [Nat.zero_add] at hg
  · intro j x0 hj
    have h := stampAux_filterMap_mem_rev 0 results j x0 hj
    rwa [Nat.zero_add] at h

/-- Closed instance of `c8_correlation`: one segment, one flagged result —
the buffer still holds one entry. -/
theorem c8_correlation_witness :
    (highlightAux 0 [['a']]
        [some ⟨[], ⟨1, 0⟩, ⟨0, 0, 0, 0⟩, [()]⟩]).length =
      ([['a']] : List (List Char)).length :=
  (c8_correlation (fun _ _ => Except.ok ⟨[], ⟨1, 0⟩, ⟨0, 0, 0, 0⟩, [()]⟩)
    [['a']] [some ⟨[], ⟨1, 0⟩, ⟨0, 0, 0, 0⟩, [()]⟩]
    (by decide) (by decide) (by decide)).1
